import Mathlib

/-!
Shallow embedding of the DSP filter toolkit (namespace `md` in the C++ source):
FIR filters (`FirFilter.hpp`), IIR filters (`IirFilter.hpp`), windows
(`Window.hpp`) and the shared buffer-processing loop (`Filter.hpp`).

Modelling conventions:
* the floating-point sample type `T` is an abstract linear ordered field `K`
  (the source is templated over a floating-point `T`); `std::sin` and `M_PI`
  are passed as explicit parameters `sinF : K → K` and `piV : K`;
* `std::array<T, Size>` state that the code keeps in bounds by construction
  (the FIR circular buffer with its head index) is a function `Fin n → K`;
* the IIR history buffers are `List K`, and every `operator[]` access of the
  IIR single-sample step goes through bounds-checked reads/writes returning
  `Option` (`none` models an out-of-bounds access, which is undefined
  behaviour in the source);
* `size_t` arithmetic is `Nat` reduced `% 2 ^ 64` where wrap-around matters
  (the loop initialisers `NumB - 1` and `NumA - 1`);
* a thrown `std::invalid_argument` is modelled by `CallResult.threw = true`
  (for the coefficient-design member functions, whose object survives the
  throw with whatever state it had) or by `Except.error ()` (for the
  `process` entry points).
-/

namespace DSPSpec

/-- The modulus of `size_t` arithmetic (64-bit target). -/
def USIZE : ℕ := 2 ^ 64

/-- `n - 1` computed in `size_t` arithmetic: wraps to `2^64 - 1` at `n = 0`. -/
def sizeTSub1 (n : ℕ) : ℕ := (n + (USIZE - 1)) % USIZE

variable {K : Type} [LinearOrderedField K] {σ : Type}

/-- State of `md::FirFilter<T, n>`: the coefficient array `m_factors`
(inherited from `SignalProcessor`), the circular input buffer `m_buffer`
and the head index `m_head` (kept in `[0, n)` by the code, hence `Fin n`). -/
structure FirState (K : Type) (n : ℕ) where
  factors : Fin n → K
  buffer : Fin n → K
  head : Fin n
  deriving DecidableEq

/-- One step of the `bufferIdx` update in `FirFilter::processSample`:
`if (bufferIdx == 0) bufferIdx = Size - 1; else bufferIdx--;`. -/
def decWrap {n : ℕ} (idx : Fin n) : Fin n :=
  if idx.val = 0 then ⟨n - 1, by have := idx.isLt; omega⟩
  else ⟨idx.val - 1, by have := idx.isLt; omega⟩

/-- The head advance at the end of `FirFilter::processSample`:
`m_head++; if (m_head >= Size) m_head = 0;`. -/
def advanceHead {n : ℕ} (h : Fin n) : Fin n :=
  if hlt : h.val + 1 < n then ⟨h.val + 1, hlt⟩
  else ⟨0, by have := h.isLt; omega⟩

/-- The accumulation loop of `FirFilter::processSample`: iteration `i` reads
`m_buffer[bufferIdx]` where `bufferIdx` starts at `m_head` and is decremented
(with wrap) once per iteration, so iteration `i` reads `decWrap^[i] head`. -/
def firConv {n : ℕ} (factors buf : Fin n → K) (head : Fin n) : K :=
  ∑ i : Fin n, buf (decWrap^[i.val] head) * factors i

/-- `FirFilter::processSample`: store the input at the head slot, accumulate
the convolution, advance the head; returns the output and the new state. -/
def firProcessSample {n : ℕ} (s : FirState K n) (x : K) : K × FirState K n :=
  let buf := Function.update s.buffer s.head x
  (firConv s.factors buf s.head,
   { factors := s.factors, buffer := buf, head := advanceHead s.head })

/-- `FirFilter::reset`: `m_buffer.fill(0.0); m_head = 0;` (coefficients kept). -/
def firReset {n : ℕ} (s : FirState K n) : FirState K n :=
  { factors := s.factors, buffer := fun _ => 0, head := ⟨0, s.head.pos⟩ }

/-- A freshly constructed `FirFilter` (constructor calls `reset`, so the
buffer is zero and the head is `0`) whose coefficients were then set to `c`. -/
def freshFir {n : ℕ} [NeZero n] (c : Fin n → K) : FirState K n :=
  { factors := c, buffer := fun _ => 0,
    head := ⟨0, Nat.pos_of_ne_zero (NeZero.ne n)⟩ }

section FirLemmas

variable {n : ℕ}

lemma exists_succ_of_neZero [NeZero n] : ∃ m, n = m + 1 :=
  ⟨n - 1, (Nat.succ_pred_eq_of_pos (Nat.pos_of_ne_zero (NeZero.ne n))).symm⟩

lemma decWrap_eq_sub_one (m : Fin (n + 1)) : decWrap m = m - 1 := by
  apply Fin.ext
  rw [Fin.coe_sub_one]
  unfold decWrap
  split_ifs with h0 h1 h1
  · rfl
  · exact absurd (Fin.ext h0) h1
  · simp [h1] at h0
  · rfl

lemma decWrap_iterate (k : ℕ) (h : Fin (n + 1)) :
    decWrap^[k] h = h - (k : Fin (n + 1)) := by
  induction k with
  | zero => simp
  | succ k ih =>
    rw [Function.iterate_succ_apply', ih, decWrap_eq_sub_one]
    push_cast
    ring

lemma advanceHead_eq [NeZero n] (h : Fin n) :
    advanceHead h = ⟨(h.val + 1) % n, Nat.mod_lt _ (Nat.pos_of_ne_zero (NeZero.ne n))⟩ := by
  apply Fin.ext
  unfold advanceHead
  have hlt := h.isLt
  by_cases hc : h.val + 1 < n
  · rw [dif_pos hc]
    exact (Nat.mod_eq_of_lt hc).symm
  · rw [dif_neg hc]
    have hn : h.val + 1 = n := by omega
    rw [hn]
    simp

lemma firConv_eq_sub [NeZero n] (factors buf : Fin n → K) (head : Fin n) :
    firConv factors buf head = ∑ i : Fin n, factors i * buf (head - i) := by
  obtain ⟨m, rfl⟩ : ∃ m, n = m + 1 := exists_succ_of_neZero
  unfold firConv
  refine Finset.sum_congr rfl fun i _ => ?_
  rw [decWrap_iterate, Fin.cast_val_eq_self, mul_comm]

end FirLemmas

/-- C1: processing one sample through the FIR filter writes the input into the
history slot at `head`, returns `∑ i, coefficient[i] * history[(head - i) mod
Size]` (with `history` the post-write buffer, subtraction in `Fin Size` being
subtraction mod `Size`), advances `head` by one wrapping to `0` at `Size`, and
changes nothing else (the coefficients are untouched and the buffer changes
only at the head slot). -/
theorem fir_processSample_spec {n : ℕ} [NeZero n] (s : FirState K n) (x : K) :
    firProcessSample s x =
      (∑ i : Fin n, s.factors i * (Function.update s.buffer s.head x) (s.head - i),
       { factors := s.factors,
         buffer := Function.update s.buffer s.head x,
         head := ⟨(s.head.val + 1) % n, Nat.mod_lt _ (Nat.pos_of_ne_zero (NeZero.ne n))⟩ }) := by
  simp only [firProcessSample, firConv_eq_sub, advanceHead_eq]

/-- Witness for C1 at a concrete state: `Size = 2`, coefficients `(3, 4)`,
buffer `(1, 2)`, head `0`, input `5`. -/
theorem fir_processSample_spec_witness :
    firProcessSample ({ factors := ![3, 4], buffer := ![1, 2], head := 0 } : FirState ℚ 2) 5 =
      (∑ i : Fin 2, (![3, 4] : Fin 2 → ℚ) i *
        (Function.update (![1, 2] : Fin 2 → ℚ) 0 5) (0 - i),
       { factors := ![3, 4], buffer := Function.update (![1, 2] : Fin 2 → ℚ) 0 5,
         head := ⟨(0 + 1) % 2, Nat.mod_lt _ (by omega)⟩ }) :=
  fir_processSample_spec _ 5

/-- Result of calling a coefficient-design member function: whether it threw
`std::invalid_argument`, and the coefficient vector the object holds after the
call returns or the exception propagates. -/
structure CallResult (σ : Type) where
  threw : Bool
  state : σ
  deriving DecidableEq

/-- The unnormalized tap `h` computed in the loop of `FirFilter::setupLowPass`:
`2 freq` when `i == center` (the comparison converts `i` to `T`), otherwise
`sin(2 π freq (n - center)) / (π (n - center))`.  `sinF` and `piV` stand for
`std::sin` and `M_PI`. -/
def lowPassH (n : ℕ) (sinF : K → K) (piV : K) (f : K) (i : ℕ) : K :=
  if (i : K) = ((n : K) - 1) / 2 then 2 * f
  else sinF (2 * piV * f * ((i : K) - ((n : K) - 1) / 2)) /
    (piV * ((i : K) - ((n : K) - 1) / 2))

/-- The running `sum` accumulated by `FirFilter::setupLowPass`. -/
def lowPassSum (n : ℕ) (sinF : K → K) (piV : K) (f : K) : K :=
  ∑ i ∈ Finset.range n, lowPassH n sinF piV f i

/-- The coefficient vector after the normalization loop of `setupLowPass`:
each tap divided by the accumulated sum. -/
def lowPassCoeffs (n : ℕ) (sinF : K → K) (piV : K) (f : K) : Fin n → K :=
  fun i => lowPassH n sinF piV f i.val / lowPassSum n sinF piV f

/-- `FirFilter::setupLowPass` acting on the coefficient vector: throws (state
unchanged) when `freq <= 0 || freq >= 0.5`, otherwise installs the normalized
windowed-sinc taps. -/
def setupLowPass (n : ℕ) (sinF : K → K) (piV : K) (f : K)
    (factors : Fin n → K) : CallResult (Fin n → K) :=
  if f ≤ 0 ∨ (1 : K) / 2 ≤ f then ⟨true, factors⟩
  else ⟨false, lowPassCoeffs n sinF piV f⟩

/-- `FirFilter::setupBandPass`: throws when `freqLow >= freqHigh`; otherwise
runs `setupLowPass(freqHigh)`, saves the result, runs `setupLowPass(freqLow)`,
and installs the elementwise difference.  When an inner call throws, the
exception propagates and the object keeps whatever coefficients it had at
that point. -/
def setupBandPass (n : ℕ) (sinF : K → K) (piV : K) (fLow fHigh : K)
    (factors : Fin n → K) : CallResult (Fin n → K) :=
  if fHigh ≤ fLow then ⟨true, factors⟩
  else
    let r1 := setupLowPass n sinF piV fHigh factors
    if r1.threw then r1
    else
      let r2 := setupLowPass n sinF piV fLow r1.state
      if r2.threw then r2
      else ⟨false, fun i => r1.state i - r2.state i⟩

/-- C6: `setupLowPass f` throws exactly when `f ≤ 0` or `f ≥ 1/2` (leaving the
coefficients unchanged then); for `0 < f < 1/2` it succeeds, sets each
coefficient to the windowed-sinc tap (`2f` at the exact center `(n-1)/2` when
that equals an index, `sin(2πf(i-center))/(π(i-center))` otherwise) divided by
the tap sum, and — whenever that unnormalized tap sum is nonzero — the
resulting coefficient vector sums to `1`. -/
theorem setupLowPass_spec {n : ℕ} (sinF : K → K) (piV : K) (f : K)
    (factors : Fin n → K) :
    ((setupLowPass n sinF piV f factors).threw = true ↔ f ≤ 0 ∨ (1 : K) / 2 ≤ f)
    ∧ ((f ≤ 0 ∨ (1 : K) / 2 ≤ f) →
        setupLowPass n sinF piV f factors = ⟨true, factors⟩)
    ∧ (0 < f → f < 1 / 2 →
        (setupLowPass n sinF piV f factors).threw = false
        ∧ (∀ i : Fin n,
            (setupLowPass n sinF piV f factors).state i =
              (if (i.val : K) = ((n : K) - 1) / 2 then 2 * f
               else sinF (2 * piV * f * ((i.val : K) - ((n : K) - 1) / 2)) /
                 (piV * ((i.val : K) - ((n : K) - 1) / 2))) /
              lowPassSum n sinF piV f)
        ∧ (lowPassSum n sinF piV f ≠ 0 →
            ∑ i : Fin n, (setupLowPass n sinF piV f factors).state i = 1)) := by
  unfold setupLowPass
  by_cases hbad : f ≤ 0 ∨ (1 : K) / 2 ≤ f
  · rw [if_pos hbad]
    refine ⟨⟨fun _ => hbad, fun _ => rfl⟩, fun _ => rfl, fun hf0 hf2 => ?_⟩
    rcases hbad with h | h
    · exact absurd hf0 (not_lt.mpr h)
    · exact absurd hf2 (not_lt.mpr h)
  · rw [if_neg hbad]
    refine ⟨⟨fun h => absurd h Bool.false_ne_true, fun h => absurd h hbad⟩,
      fun h => absurd h hbad, fun _ _ => ⟨rfl, fun i => rfl, fun hsum => ?_⟩⟩
    show ∑ i : Fin n, lowPassCoeffs n sinF piV f i = 1
    unfold lowPassCoeffs
    rw [← Finset.sum_div, Fin.sum_univ_eq_sum_range]
    exact div_self hsum

/-- Witness for C6 at `n = 1`, `f = 1/4` (with rational stand-ins for `sin`
and `π`; the center tap makes the sum `1/2 ≠ 0`). -/
theorem setupLowPass_spec_witness :
    (0 : ℚ) < 1 / 4 ∧ (1 / 4 : ℚ) < 1 / 2
    ∧ lowPassSum 1 (fun _ => (0 : ℚ)) 0 (1 / 4) ≠ 0
    ∧ ∑ i : Fin 1, (setupLowPass 1 (fun _ => (0 : ℚ)) 0 (1 / 4) (fun _ => 0)).state i = 1 := by
  refine ⟨by norm_num, by norm_num, ?_, ?_⟩
  · norm_num [lowPassSum, lowPassH]
  · exact ((setupLowPass_spec (fun _ => (0 : ℚ)) 0 (1 / 4) (fun _ => 0)).2.2
      (by norm_num) (by norm_num)).2.2 (by norm_num [lowPassSum, lowPassH])

/-- C7: `setupBandPass(fLow, fHigh)` throws for every pair with
`fLow ≥ fHigh` (coefficients unchanged); for `fLow < fHigh` with both
frequencies valid for the low-pass design (`0 < fLow` and `fHigh < 1/2`
suffice, since `fLow < fHigh`), it succeeds and the resulting coefficient
vector is elementwise `lowPass(fHigh) - lowPass(fLow)`. -/
theorem setupBandPass_spec {n : ℕ} (sinF : K → K) (piV : K) (fLow fHigh : K)
    (factors : Fin n → K) :
    (fHigh ≤ fLow → setupBandPass n sinF piV fLow fHigh factors = ⟨true, factors⟩)
    ∧ (fLow < fHigh → 0 < fLow → fHigh < 1 / 2 →
        setupBandPass n sinF piV fLow fHigh factors =
          ⟨false, fun i =>
            lowPassCoeffs n sinF piV fHigh i - lowPassCoeffs n sinF piV fLow i⟩) := by
  constructor
  · intro hle
    unfold setupBandPass
    rw [if_pos hle]
  · intro hlt hpos hhalf
    have hHok : ¬(fHigh ≤ 0 ∨ (1 : K) / 2 ≤ fHigh) := by
      push_neg
      constructor <;> linarith
    have hLok : ¬(fLow ≤ 0 ∨ (1 : K) / 2 ≤ fLow) := by
      push_neg
      constructor <;> linarith
    unfold setupBandPass setupLowPass
    rw [if_neg (not_le.mpr hlt)]
    simp only [if_neg hHok, if_neg hLok]
    rfl

/-- Witness for C7 at `n = 1`, `fLow = 1/8`, `fHigh = 1/4`. -/
theorem setupBandPass_spec_witness :
    (1 / 8 : ℚ) < 1 / 4 ∧ (0 : ℚ) < 1 / 8 ∧ (1 / 4 : ℚ) < 1 / 2
    ∧ setupBandPass 1 (fun _ => (0 : ℚ)) 0 (1 / 8) (1 / 4) (fun _ => 0) =
      ⟨false, fun i =>
        lowPassCoeffs 1 (fun _ => (0 : ℚ)) 0 (1 / 4) i -
          lowPassCoeffs 1 (fun _ => (0 : ℚ)) 0 (1 / 8) i⟩ :=
  ⟨by norm_num, by norm_num, by norm_num,
    (setupBandPass_spec (fun _ => (0 : ℚ)) 0 (1 / 8) (1 / 4) (fun _ => 0)).2
      (by norm_num) (by norm_num) (by norm_num)⟩

lemma bandPass_lowFail_eq {n : ℕ} (sinF : K → K) (piV : K) (fLow fHigh : K)
    (factors : Fin n → K) (hlt : fLow < fHigh) (h0 : 0 < fHigh)
    (h2 : fHigh < 1 / 2) (hbad : fLow ≤ 0 ∨ (1 : K) / 2 ≤ fLow) :
    setupBandPass n sinF piV fLow fHigh factors =
      ⟨true, lowPassCoeffs n sinF piV fHigh⟩ := by
  have hHok : ¬(fHigh ≤ 0 ∨ (1 : K) / 2 ≤ fHigh) := by
    push_neg
    constructor <;> linarith
  unfold setupBandPass setupLowPass
  rw [if_neg (not_le.mpr hlt)]
  simp only [if_neg hHok, if_pos hbad]
  rfl

/-- C4 counterexample: with `Size = 1`, starting from the all-zero coefficient
vector, `setupBandPass(-1, 1/4)` fails with an invalid-argument condition
(the second inner low-pass call rejects `freqLow = -1`), yet the coefficient
vector after the failing call is not its value before the call: the first
inner call `setupLowPass(1/4)` already overwrote it. -/
theorem setupBandPass_mutates_cex :
    (setupBandPass 1 (fun _ => (0 : ℚ)) 0 (-1) (1 / 4) (fun _ => 0)).threw = true
    ∧ (setupBandPass 1 (fun _ => (0 : ℚ)) 0 (-1) (1 / 4) (fun _ => 0)).state ≠
      (fun _ => 0) := by
  have h : setupBandPass 1 (fun _ => (0 : ℚ)) 0 (-1) (1 / 4) (fun _ => 0) =
      ⟨true, lowPassCoeffs 1 (fun _ => (0 : ℚ)) 0 (1 / 4)⟩ :=
    bandPass_lowFail_eq _ _ _ _ _ (by norm_num) (by norm_num) (by norm_num)
      (Or.inl (by norm_num))
  rw [h]
  refine ⟨rfl, fun heq => ?_⟩
  have h0 := congrFun heq 0
  norm_num [lowPassCoeffs, lowPassH, lowPassSum] at h0

/-- C4 amended: a failing `setupBandPass(fLow, fHigh)` leaves the coefficient
vector unchanged when it fails on the ordering check (`fLow ≥ fHigh`) or when
the first inner low-pass call rejects `fHigh`; but when `fHigh` is valid and
`fLow` is rejected (necessarily `fLow ≤ 0`, as `fLow < fHigh < 1/2`), the
failing call leaves the coefficients set to the low-pass design for `fHigh`
— validation is not complete before mutation begins in that case. -/
theorem setupBandPass_failing_state {n : ℕ} (sinF : K → K) (piV : K)
    (fLow fHigh : K) (factors : Fin n → K) :
    (fHigh ≤ fLow → setupBandPass n sinF piV fLow fHigh factors = ⟨true, factors⟩)
    ∧ (fLow < fHigh → (fHigh ≤ 0 ∨ (1 : K) / 2 ≤ fHigh) →
        setupBandPass n sinF piV fLow fHigh factors = ⟨true, factors⟩)
    ∧ (fLow < fHigh → 0 < fHigh → fHigh < 1 / 2 →
        (fLow ≤ 0 ∨ (1 : K) / 2 ≤ fLow) →
        setupBandPass n sinF piV fLow fHigh factors =
          ⟨true, lowPassCoeffs n sinF piV fHigh⟩) := by
  refine ⟨fun hle => ?_, fun hlt hbad => ?_, fun hlt h0 h2 hbad => ?_⟩
  · unfold setupBandPass
    rw [if_pos hle]
  · unfold setupBandPass setupLowPass
    rw [if_neg (not_le.mpr hlt)]
    simp only [if_pos hbad]
    rfl
  · exact bandPass_lowFail_eq sinF piV fLow fHigh factors hlt h0 h2 hbad

/-- Witness for the amended C4 at `Size = 1`, `fLow = -1`, `fHigh = 1/4`. -/
theorem setupBandPass_failing_state_witness :
    (-1 : ℚ) < 1 / 4 ∧ (0 : ℚ) < 1 / 4 ∧ (1 / 4 : ℚ) < 1 / 2
    ∧ ((-1 : ℚ) ≤ 0 ∨ (1 / 2 : ℚ) ≤ -1)
    ∧ setupBandPass 1 (fun _ => (0 : ℚ)) 0 (-1) (1 / 4) (fun _ => 0) =
      ⟨true, lowPassCoeffs 1 (fun _ => (0 : ℚ)) 0 (1 / 4)⟩ :=
  ⟨by norm_num, by norm_num, by norm_num, Or.inl (by norm_num),
    (setupBandPass_failing_state (fun _ => (0 : ℚ)) 0 (-1) (1 / 4) (fun _ => 0)).2.2
      (by norm_num) (by norm_num) (by norm_num) (Or.inl (by norm_num))⟩

/-! ### IIR filter (`IirFilter.hpp`)

The two history buffers are `List K`; every `operator[]` access of
`IirFilter::processSample` goes through the bounds-checked `readC`/`writeC`
(`none` = out-of-bounds access, undefined behaviour in the source). -/

/-- Bounds-checked read `l[i]`. -/
def readC (l : List K) (i : ℕ) : Option K := l[i]?

/-- Bounds-checked write `l[i] = v`. -/
def writeC (l : List K) (i : ℕ) (v : K) : Option (List K) :=
  if i < l.length then some (l.set i v) else none

/-- The history-shift loop `for (size_t i = N - 1; i > 0; i--) buf[i] = buf[i-1];`
of `IirFilter::processSample`, entered with counter `k = N - 1` computed in
`size_t` arithmetic; the iteration with counter `k + 1` reads index `k` and
writes index `k + 1`. -/
def shiftLoop : List K → ℕ → Option (List K)
  | cur, 0 => some cur
  | cur, k + 1 =>
    (readC cur k).bind fun v =>
      (writeC cur (k + 1) v).bind fun cur2 => shiftLoop cur2 k

/-- The accumulation loops of `IirFilter::processSample`
(`acc += m_factors[foff + i] * buf[i]` for `i = 0 .. cnt - 1`). -/
def dotLoop (f g : List K) (foff : ℕ) : ℕ → ℕ → K → Option K
  | _, 0, acc => some acc
  | i, cnt + 1, acc =>
    (readC f (foff + i)).bind fun a =>
      (readC g i).bind fun b => dotLoop f g foff (i + 1) cnt (acc + a * b)

/-- `IirFilter<T, NumB, NumA>::processSample`: shift the input history
(counter starts at `NumB - 1` in `size_t`), insert the input at slot 0,
accumulate the feedforward and feedback sums, shift the output history
(counter starts at `NumA - 1` in `size_t`, wrapping to `2^64 - 1` when
`NumA = 0`), store the output at slot 0 when `NumA > 0`, and return the
output together with the new history buffers. -/
def iirProcessSample (NumB NumA : ℕ) (factors inBuff outBuff : List K)
    (input : K) : Option (K × List K × List K) :=
  (shiftLoop inBuff (sizeTSub1 NumB)).bind fun shiftedIn =>
  (writeC shiftedIn 0 input).bind fun newIn =>
  (dotLoop factors newIn 0 0 NumB 0).bind fun ff =>
  (dotLoop factors outBuff NumB 0 NumA 0).bind fun fb =>
  (shiftLoop outBuff (sizeTSub1 NumA)).bind fun shiftedOut =>
  (if 0 < NumA then writeC shiftedOut 0 (ff - fb) else some shiftedOut).bind
    fun newOut => some (ff - fb, newIn, newOut)

/-- State of `md::IirFilter`: combined coefficient vector (length
`NumB + NumA`), input history (length `NumB`), output history (length
`NumA`). -/
structure IirState (K : Type) where
  factors : List K
  inBuff : List K
  outBuff : List K
  deriving DecidableEq

/-- `IirFilter::reset`: fills both history buffers and the coefficient
vector with zero. -/
def iirReset (s : IirState K) : IirState K :=
  { factors := List.replicate s.factors.length 0,
    inBuff := List.replicate s.inBuff.length 0,
    outBuff := List.replicate s.outBuff.length 0 }

/-- `IirFilter::setCoefficients`: copies the `NumB` feedforward coefficients
into the first half and the `NumA` feedback coefficients into the second
half of `m_factors`. -/
def iirSetCoefficients (s : IirState K) (bFactors aFactors : List K) :
    IirState K :=
  { factors := bFactors ++ aFactors, inBuff := s.inBuff, outBuff := s.outBuff }

/-- One `processSample` call on an `IirState`. -/
def iirStep (NumB NumA : ℕ) (s : IirState K) (x : K) :
    Option (K × IirState K) :=
  (iirProcessSample NumB NumA s.factors s.inBuff s.outBuff x).map fun r =>
    (r.1, { factors := s.factors, inBuff := r.2.1, outBuff := r.2.2 })

/-- `Filter::process` specialised to the IIR filter: one `processSample`
call per sample, in order (propagating undefined behaviour). -/
def iirRun (NumB NumA : ℕ) : IirState K → List K → Option (List K × IirState K)
  | s, [] => some ([], s)
  | s, x :: xs =>
    (iirStep NumB NumA s x).bind fun r =>
      (iirRun NumB NumA r.2 xs).bind fun q => some (r.1 :: q.1, q.2)

lemma shiftLoop_nil_pos (k : ℕ) (hk : 0 < k) :
    shiftLoop ([] : List K) k = none := by
  cases k with
  | zero => omega
  | succ k => simp [shiftLoop, readC]

/-- C3 (evaluation at the failing input): for `NumB = 1`, `NumA = 0` —
a combination the source intends to support, witness the `if (NumA > 0)`
guard on the output-slot store — processing a sample hits an out-of-bounds
access: the output-history shift loop starts at `i = (size_t)(0 - 1) =
2^64 - 1` and reads `m_outBuff[2^64 - 2]` on a zero-length array, so the
single-sample step is undefined behaviour (`none`), contradicting the claim
that no output-history access occurs and every index stays in bounds. -/
theorem iir_numA_zero_oob :
    iirProcessSample 1 0 [(1 : ℚ)] [0] [] 1 = none := by
  have hbad : shiftLoop ([] : List ℚ) (sizeTSub1 0) = none :=
    shiftLoop_nil_pos _ (by norm_num [sizeTSub1, USIZE])
  simp only [iirProcessSample, hbad]
  rfl

/-- Specification-side dot product: `Σ f[i] * g[i]` over the common length. -/
def dotList (f g : List K) : K := (List.zipWith (· * ·) f g).sum

lemma dotList_cons (a b : K) (f g : List K) :
    dotList (a :: f) (b :: g) = a * b + dotList f g := by
  simp [dotList]

lemma sizeTSub1_of_pos {n : ℕ} (h1 : 1 ≤ n) (h2 : n < USIZE) :
    sizeTSub1 n = n - 1 := by
  unfold sizeTSub1 USIZE at *
  omega

lemma shiftLoop_spec (k : ℕ) : ∀ (l : List K), k < l.length →
    ∃ r, shiftLoop l k = some r ∧ r.length = l.length
      ∧ (∀ i : ℕ, 1 ≤ i → i ≤ k → r[i]? = l[i - 1]?)
      ∧ (∀ i : ℕ, i = 0 ∨ k < i → r[i]? = l[i]?) := by
  induction k with
  | zero =>
    intro l _
    exact ⟨l, rfl, rfl, fun i h1 h2 => absurd (h1.trans h2) (by omega),
      fun i _ => rfl⟩
  | succ k ih =>
    intro l hl
    have hk : k < l.length := by omega
    obtain ⟨r, hr1, hr2, hr3, hr4⟩ := ih (l.set (k + 1) (l.get ⟨k, hk⟩))
      (by rw [List.length_set]; omega)
    refine ⟨r, ?_, by rw [hr2, List.length_set], ?_, ?_⟩
    · show shiftLoop l (k + 1) = some r
      simp only [shiftLoop, readC, List.getElem?_eq_getElem hk, Option.some_bind,
        writeC, if_pos hl, List.get_eq_getElem]
      exact hr1
    · intro i h1 h2
      by_cases hik : i = k + 1
      · subst hik
        rw [hr4 (k + 1) (Or.inr (by omega)), List.getElem?_set_self hl,
          Nat.add_sub_cancel, List.getElem?_eq_getElem hk, List.get_eq_getElem]
      · rw [hr3 i h1 (by omega), List.getElem?_set_ne (by omega)]
    · intro i hi
      rcases hi with hi | hi
      · subst hi
        rw [hr4 0 (Or.inl rfl), List.getElem?_set_ne (by omega)]
      · rw [hr4 i (Or.inr (by omega)), List.getElem?_set_ne (by omega)]

/-- Net effect of the shift loop on a nonempty buffer: every slot moves one
place towards the back, the front slot keeps its old value (it is overwritten
by the caller right after), the last element falls off. -/
lemma shiftLoop_full (x : K) (rest : List K) :
    shiftLoop (x :: rest) rest.length = some (x :: (x :: rest).dropLast) := by
  obtain ⟨r, hr1, hr2, hr3, hr4⟩ :=
    shiftLoop_spec rest.length (x :: rest) (by simp)
  rw [hr1]
  congr 1
  apply List.ext_getElem?
  intro i
  cases i with
  | zero => rw [hr4 0 (Or.inl rfl)]; simp
  | succ i =>
    rw [List.getElem?_cons_succ, List.getElem?_dropLast]
    by_cases hile : i < rest.length
    · rw [if_pos (by simp; omega), hr3 (i + 1) (by omega) (by omega),
        Nat.add_sub_cancel]
    · rw [if_neg (by simp; omega), hr4 (i + 1) (Or.inr (by omega)),
        List.getElem?_eq_none (by simp; omega)]

lemma dotLoop_eq (f g : List K) (foff : ℕ) :
    ∀ (cnt i : ℕ) (acc : K), foff + i + cnt ≤ f.length → i + cnt ≤ g.length →
      dotLoop f g foff i cnt acc =
        some (acc + dotList ((f.drop (foff + i)).take cnt) ((g.drop i).take cnt)) := by
  intro cnt
  induction cnt with
  | zero =>
    intro i acc _ _
    simp [dotLoop, dotList]
  | succ cnt ih =>
    intro i acc hf hg
    have ha : foff + i < f.length := by omega
    have hb : i < g.length := by omega
    rw [List.drop_eq_getElem_cons ha, List.drop_eq_getElem_cons hb,
      List.take_succ_cons, List.take_succ_cons, dotList_cons]
    simp only [dotLoop, readC, List.getElem?_eq_getElem ha,
      List.getElem?_eq_getElem hb, Option.some_bind]
    rw [ih (i + 1) (acc + f[foff + i] * g[i]) (by omega) (by omega),
      show foff + (i + 1) = foff + i + 1 from by omega, add_assoc]

lemma iirProcessSample_eq (NumB NumA : ℕ) (bs aCoef inBuff outBuff : List K)
    (x : K) (hB : 1 ≤ NumB) (hA : 1 ≤ NumA) (hBU : NumB < USIZE)
    (hAU : NumA < USIZE) (hbs : bs.length = NumB) (hac : aCoef.length = NumA)
    (hin : inBuff.length = NumB) (hout : outBuff.length = NumA) :
    iirProcessSample NumB NumA (bs ++ aCoef) inBuff outBuff x =
      some (dotList bs (x :: inBuff.dropLast) - dotList aCoef outBuff,
            x :: inBuff.dropLast,
            (dotList bs (x :: inBuff.dropLast) - dotList aCoef outBuff) ::
              outBuff.dropLast) := by
  rcases inBuff with _ | ⟨i0, irest⟩
  · exact absurd hin (by simp; omega)
  rcases outBuff with _ | ⟨o0, orest⟩
  · exact absurd hout (by simp; omega)
  have hlenBA : (bs ++ aCoef).length = NumB + NumA := by
    rw [List.length_append, hbs, hac]
  have hxdl_len : (x :: (i0 :: irest).dropLast).length = NumB := by
    simp only [List.length_cons, List.length_dropLast] at hin ⊢
    omega
  have h1 : shiftLoop (i0 :: irest) (sizeTSub1 NumB) =
      some (i0 :: (i0 :: irest).dropLast) := by
    rw [sizeTSub1_of_pos hB hBU,
      show NumB - 1 = irest.length from by simp only [List.length_cons] at hin; omega]
    exact shiftLoop_full i0 irest
  have h2 : writeC (i0 :: (i0 :: irest).dropLast) 0 x =
      some (x :: (i0 :: irest).dropLast) := by
    simp [writeC]
  have h3 : dotLoop (bs ++ aCoef) (x :: (i0 :: irest).dropLast) 0 0 NumB 0 =
      some (dotList bs (x :: (i0 :: irest).dropLast)) := by
    rw [dotLoop_eq (bs ++ aCoef) (x :: (i0 :: irest).dropLast) 0 NumB 0 0
      (by rw [hlenBA]; omega) (by rw [hxdl_len]; omega)]
    rw [Nat.add_zero, List.drop_zero, List.drop_zero, ← hbs, List.take_left,
      List.take_of_length_le (le_of_eq (by rw [hxdl_len, hbs])), zero_add]
  have h4 : dotLoop (bs ++ aCoef) (o0 :: orest) NumB 0 NumA 0 =
      some (dotList aCoef (o0 :: orest)) := by
    rw [dotLoop_eq (bs ++ aCoef) (o0 :: orest) NumB NumA 0 0
      (by rw [hlenBA]; omega) (by rw [hout]; omega)]
    rw [Nat.add_zero, List.drop_zero, List.drop_left' hbs, ← hac,
      List.take_length, List.take_of_length_le (le_of_eq (by rw [hout, hac])),
      zero_add]
  have h5 : shiftLoop (o0 :: orest) (sizeTSub1 NumA) =
      some (o0 :: (o0 :: orest).dropLast) := by
    rw [sizeTSub1_of_pos hA hAU,
      show NumA - 1 = orest.length from by simp only [List.length_cons] at hout; omega]
    exact shiftLoop_full o0 orest
  have h6 : ∀ out : K, writeC (o0 :: (o0 :: orest).dropLast) 0 out =
      some (out :: (o0 :: orest).dropLast) := fun out => by
    simp [writeC]
  unfold iirProcessSample
  simp only [h1, Option.some_bind, h2, h3, h4, h5, if_pos (by omega : 0 < NumA), h6]

/-- C2: for `NumB ≥ 1` and `NumA ≥ 1` (and history/coefficient buffers of the
template-prescribed lengths), one `processSample` call is defined (no
out-of-bounds access) and: the input history is shifted right by one with the
input inserted at position 0; the output is `Σ b[i]·input_history[i] -
Σ a[i]·output_history[i]` (feedforward over the post-shift input history,
feedback over the pre-shift output history); and the output history is
shifted right by one with the new output inserted at position 0. -/
theorem iir_processSample_spec (NumB NumA : ℕ) (bs aCoef inBuff outBuff : List K)
    (x : K) (hB : 1 ≤ NumB) (hA : 1 ≤ NumA) (hBU : NumB < USIZE)
    (hAU : NumA < USIZE) (hbs : bs.length = NumB) (hac : aCoef.length = NumA)
    (hin : inBuff.length = NumB) (hout : outBuff.length = NumA) :
    iirProcessSample NumB NumA (bs ++ aCoef) inBuff outBuff x =
      some (dotList bs (x :: inBuff.dropLast) - dotList aCoef outBuff,
            x :: inBuff.dropLast,
            (dotList bs (x :: inBuff.dropLast) - dotList aCoef outBuff) ::
              outBuff.dropLast) :=
  iirProcessSample_eq NumB NumA bs aCoef inBuff outBuff x hB hA hBU hAU hbs hac
    hin hout

/-- Witness for C2 at `NumB = NumA = 1`, `b = [1/2]`, `a = [1/3]`,
input history `[2]`, output history `[3]`, input `5`. -/
theorem iir_processSample_spec_witness :
    (1 : ℕ) ≤ 1 ∧ (1 : ℕ) < USIZE ∧
    iirProcessSample 1 1 ([(1 : ℚ)/2] ++ [1/3]) [2] [3] 5 =
      some (dotList [(1 : ℚ)/2] (5 :: [(2 : ℚ)].dropLast) - dotList [(1 : ℚ)/3] [3],
            5 :: [(2 : ℚ)].dropLast,
            (dotList [(1 : ℚ)/2] (5 :: [(2 : ℚ)].dropLast) -
              dotList [(1 : ℚ)/3] [3]) :: [(3 : ℚ)].dropLast) :=
  ⟨le_refl 1, by norm_num [USIZE],
    iir_processSample_spec 1 1 [1/2] [1/3] [2] [3] 5 (le_refl 1) (le_refl 1)
      (by norm_num [USIZE]) (by norm_num [USIZE]) rfl rfl rfl rfl⟩

lemma dotList_zero_left : ∀ (m : ℕ) (g : List K),
    dotList (List.replicate m 0) g = 0 := by
  intro m
  induction m with
  | zero => intro g; simp [dotList]
  | succ m ih =>
    intro g
    cases g with
    | nil => simp [dotList]
    | cons b g' =>
      rw [List.replicate_succ, dotList_cons, ih, zero_mul, zero_add]

lemma iirRun_zero_factors (NumB NumA : ℕ) (hB : 1 ≤ NumB) (hA : 1 ≤ NumA)
    (hBU : NumB < USIZE) (hAU : NumA < USIZE) :
    ∀ (xs : List K) (s : IirState K),
      s.factors = List.replicate (NumB + NumA) 0 →
      s.inBuff.length = NumB → s.outBuff.length = NumA →
      ∃ s', iirRun NumB NumA s xs = some (List.replicate xs.length 0, s')
        ∧ s'.factors = s.factors ∧ s'.inBuff.length = NumB
        ∧ s'.outBuff.length = NumA := by
  intro xs
  induction xs with
  | nil =>
    intro s hfac hin hout
    exact ⟨s, rfl, rfl, hin, hout⟩
  | cons x xs ih =>
    intro s hfac hin hout
    have hsplit : s.factors = List.replicate NumB 0 ++ List.replicate NumA 0 := by
      rw [hfac, ← List.replicate_add]
    have hstep : iirProcessSample NumB NumA s.factors s.inBuff s.outBuff x =
        some (0, x :: s.inBuff.dropLast, (0 : K) :: s.outBuff.dropLast) := by
      rw [hsplit, iirProcessSample_eq NumB NumA _ _ _ _ x hB hA hBU hAU
        (List.length_replicate _ _) (List.length_replicate _ _) hin hout,
        dotList_zero_left, dotList_zero_left, sub_zero]
    have hlen_in : (x :: s.inBuff.dropLast).length = NumB := by
      simp only [List.length_cons, List.length_dropLast]
      omega
    have hlen_out : ((0 : K) :: s.outBuff.dropLast).length = NumA := by
      simp only [List.length_cons, List.length_dropLast]
      omega
    obtain ⟨s', hs'1, hs'2, hs'3, hs'4⟩ := ih
      { factors := s.factors, inBuff := x :: s.inBuff.dropLast,
        outBuff := (0 : K) :: s.outBuff.dropLast }
      hfac hlen_in hlen_out
    refine ⟨s', ?_, hs'2, hs'3, hs'4⟩
    simp only [iirRun, iirStep, hstep, Option.map_some', Option.some_bind, hs'1,
      List.length_cons, List.replicate_succ]

/-- C5: `FirFilter::reset` zeroes every history-buffer slot and the head
index while leaving the coefficient vector exactly unchanged;
`IirFilter::reset` zeroes every element of the input history, the output
history and the coefficient vector, and consequently (for the supported
template sizes `NumB ≥ 1`, `NumA ≥ 1`) processing any input buffer after the
reset — before `setCoefficients` is called again — yields all-zero output. -/
theorem reset_spec {n : ℕ} (s : FirState K n) (t : IirState K) :
    (firReset s).factors = s.factors
    ∧ (firReset s).buffer = (fun _ => 0)
    ∧ ((firReset s).head : ℕ) = 0
    ∧ (iirReset t).inBuff = List.replicate t.inBuff.length 0
    ∧ (iirReset t).outBuff = List.replicate t.outBuff.length 0
    ∧ (iirReset t).factors = List.replicate t.factors.length 0
    ∧ (∀ NumB NumA : ℕ, 1 ≤ NumB → 1 ≤ NumA → NumB < USIZE → NumA < USIZE →
        t.factors.length = NumB + NumA → t.inBuff.length = NumB →
        t.outBuff.length = NumA → ∀ xs : List K,
          ∃ t', iirRun NumB NumA (iirReset t) xs =
            some (List.replicate xs.length 0, t')) := by
  refine ⟨rfl, rfl, rfl, rfl, rfl, rfl, ?_⟩
  intro NumB NumA hB hA hBU hAU hfac hin hout xs
  obtain ⟨t', ht', -, -, -⟩ := iirRun_zero_factors NumB NumA hB hA hBU hAU xs
    (iirReset t) (by rw [iirReset, hfac]) (by rw [iirReset, List.length_replicate, hin])
    (by rw [iirReset, List.length_replicate, hout])
  exact ⟨t', ht'⟩

/-- Witness for C5 at a concrete FIR state (`Size = 2`) and IIR state
(`NumB = NumA = 1`), processing `[5, 7]` after the IIR reset. -/
theorem reset_spec_witness :
    (firReset ({ factors := ![3, 4], buffer := ![1, 2], head := 1 } : FirState ℚ 2)).factors = ![3, 4]
    ∧ (1 : ℕ) ≤ 1 ∧ (1 : ℕ) < USIZE
    ∧ (∃ t', iirRun 1 1 (iirReset ({ factors := [5, 6], inBuff := [7], outBuff := [8] } : IirState ℚ))
        [5, 7] = some (List.replicate 2 0, t')) := by
  have h := reset_spec ({ factors := ![3, 4], buffer := ![1, 2], head := 1 } : FirState ℚ 2)
    ({ factors := [5, 6], inBuff := [7], outBuff := [8] } : IirState ℚ)
  exact ⟨h.1, le_refl 1, by norm_num [USIZE],
    h.2.2.2.2.2.2 1 1 (le_refl 1) (le_refl 1) (by norm_num [USIZE])
      (by norm_num [USIZE]) rfl rfl rfl [5, 7]⟩

/-! ### `Filter::process` / `Window::process` (`Filter.hpp`, `Window.hpp`)

A caller's pointer-and-length buffer is `Option (List K)`: `none` is a null
pointer, `some l` a buffer of `l.length` samples.  `step` abstracts the
virtual `processSample` of the concrete filter. -/

/-- The per-sample loop shared by both `Filter::process` overloads:
`for (...) signal[i] = processSample(signal[i]);` — returns the transformed
samples and the final filter state. -/
def filterGo (step : σ → K → K × σ) : σ → List K → List K × σ
  | s, [] => ([], s)
  | s, x :: xs =>
    let p := step s x
    let q := filterGo step p.2 xs
    (p.1 :: q.1, q.2)

/-- `Filter::process(T* signal, size_t length)`: throws when `signal` is null
or `length == 0`, otherwise filters every sample in order. -/
def filterProcessPtr (step : σ → K → K × σ) (s : σ) (sig : Option (List K)) :
    Except Unit (List K × σ) :=
  match sig with
  | none => Except.error ()
  | some l =>
    if l.length = 0 then Except.error () else Except.ok (filterGo step s l)

/-- `Filter::process(Container&)`: the range-based loop with no validation at
all — an empty container just runs zero iterations. -/
def filterProcessContainer (step : σ → K → K × σ) (s : σ) (l : List K) :
    List K × σ :=
  filterGo step s l

/-- `Window::process(T* signal, size_t length)`: throws when `signal` is null
or `length != Size` (`w` is the window's coefficient array, `w.length = Size`),
otherwise multiplies each sample in place by the matching coefficient. -/
def windowProcess (w : List K) (sig : Option (List K)) : Except Unit (List K) :=
  match sig with
  | none => Except.error ()
  | some l =>
    if l.length ≠ w.length then Except.error ()
    else Except.ok (List.zipWith (· * ·) l w)

/-- C9: `Window::process` fails with an invalid-argument condition (mutating
nothing — the rejected buffer is returned to the caller untouched, as the
check precedes the loop) exactly when the signal is null or its length
differs from `Size` in either direction; on the exact length it multiplies
the samples elementwise by the coefficients.  `Filter::process`, instead,
fails exactly when the signal is null or the length is zero, accepting every
positive length. -/
theorem window_filter_process_validation (w : List K) (step : σ → K → K × σ)
    (s : σ) :
    (∀ l : List K, (windowProcess w (some l) = Except.error () ↔ l.length ≠ w.length))
    ∧ windowProcess w none = Except.error ()
    ∧ (∀ l : List K, l.length = w.length →
        windowProcess w (some l) = Except.ok (List.zipWith (· * ·) l w))
    ∧ (∀ l : List K, (filterProcessPtr step s (some l) = Except.error () ↔ l.length = 0))
    ∧ filterProcessPtr step s none = Except.error ()
    ∧ (∀ l : List K, 0 < l.length →
        filterProcessPtr step s (some l) = Except.ok (filterGo step s l)) := by
  refine ⟨fun l => ?_, rfl, fun l hl => ?_, fun l => ?_, rfl, fun l hl => ?_⟩
  · unfold windowProcess
    by_cases h : l.length ≠ w.length
    · simp [if_pos h, h]
    · simp [if_neg h, h]
  · simp only [windowProcess]
    rw [if_neg (by simp [hl])]
  · unfold filterProcessPtr
    by_cases h : l.length = 0
    · simp [if_pos h, h]
    · simp [if_neg h, h]
  · simp only [filterProcessPtr]
    rw [if_neg (by omega)]

/-- Witness for C9: window of size 2 rejects length 1 and length 3, accepts
length 2; a filter accepts length 1. -/
theorem window_filter_process_validation_witness :
    (windowProcess [(2 : ℚ), 3] (some [5]) = Except.error () ↔ ([(5 : ℚ)].length ≠ [(2 : ℚ), 3].length))
    ∧ ([(5 : ℚ), 7].length = [(2 : ℚ), 3].length)
    ∧ windowProcess [(2 : ℚ), 3] (some [5, 7]) =
        Except.ok (List.zipWith (· * ·) [(5 : ℚ), 7] [(2 : ℚ), 3])
    ∧ (0 : ℕ) < [(5 : ℚ)].length
    ∧ filterProcessPtr (fun (u : Unit) x => (x, u)) () (some [(5 : ℚ)]) =
        Except.ok (filterGo (fun (u : Unit) x => (x, u)) () [(5 : ℚ)]) := by
  have h := window_filter_process_validation [(2 : ℚ), 3]
    (fun (u : Unit) x => (x, u)) ()
  exact ⟨h.1 [5], by norm_num, h.2.2.1 [5, 7] (by norm_num), by norm_num,
    h.2.2.2.2.2 [5] (by norm_num)⟩

/-- C10: the container overload of `Filter::process`, run on an empty
container, is a silent no-op: it signals no error and returns the container
and the filter state unchanged — while the pointer-and-length overload fails
with an invalid-argument condition on length 0. -/
theorem filter_process_empty_container (step : σ → K → K × σ) (s : σ) :
    filterProcessContainer step s ([] : List K) = ([], s)
    ∧ filterProcessPtr step s (some ([] : List K)) = Except.error () :=
  ⟨rfl, rfl⟩

/-! ### FIR impulse response (C8) -/

section FirImpulse

variable {n : ℕ}

lemma firConv_zeroBuf (c : Fin n → K) (h : Fin n) :
    firConv c (fun _ => 0) h = 0 := by
  unfold firConv
  exact Finset.sum_eq_zero fun i _ => zero_mul _

lemma firConv_deltaBuf (c : Fin n → K) (hn : 0 < n) (j : ℕ) (hjlt : j < n) :
    firConv c (Function.update (fun _ => (0 : K)) ⟨0, hn⟩ 1) ⟨j, hjlt⟩ =
      c ⟨j, hjlt⟩ := by
  haveI : NeZero n := ⟨by omega⟩
  rw [firConv_eq_sub]
  have hzero : (⟨0, hn⟩ : Fin n) = 0 := Fin.ext (by simp)
  have hval : ∀ i : Fin n,
      Function.update (fun _ => (0 : K)) ⟨0, hn⟩ 1 ((⟨j, hjlt⟩ : Fin n) - i) =
        if i = ⟨j, hjlt⟩ then 1 else 0 := by
    intro i
    rw [Function.update_apply, hzero]
    by_cases hi : i = ⟨j, hjlt⟩
    · rw [if_pos hi, if_pos (by rw [hi, sub_self])]
    · rw [if_neg hi, if_neg]
      intro hc
      exact hi (sub_eq_zero.mp hc).symm
  calc (∑ i : Fin n, c i *
          Function.update (fun _ => (0 : K)) ⟨0, hn⟩ 1 ((⟨j, hjlt⟩ : Fin n) - i))
      = ∑ i : Fin n, if i = ⟨j, hjlt⟩ then c i else 0 := by
        refine Finset.sum_congr rfl fun i _ => ?_
        rw [hval i]
        by_cases hi : i = ⟨j, hjlt⟩ <;> simp [hi]
    _ = c ⟨j, hjlt⟩ := by
        rw [Finset.sum_ite_eq' Finset.univ]
        exact if_pos (Finset.mem_univ _)

lemma firStep_impulse (c : Fin n → K) (hn : 0 < n) :
    firProcessSample (⟨c, fun _ => 0, ⟨0, hn⟩⟩ : FirState K n) 1 =
      (c ⟨0, hn⟩,
       ⟨c, Function.update (fun _ => (0 : K)) ⟨0, hn⟩ 1, advanceHead ⟨0, hn⟩⟩) := by
  unfold firProcessSample
  simp only [firConv_deltaBuf c hn 0 hn]

lemma firStep_delta (c : Fin n → K) (hn : 0 < n) (j : ℕ) (hj : 1 ≤ j)
    (hjlt : j < n) :
    firProcessSample
      (⟨c, Function.update (fun _ => (0 : K)) ⟨0, hn⟩ 1, ⟨j, hjlt⟩⟩ : FirState K n) 0 =
      (c ⟨j, hjlt⟩,
       ⟨c, Function.update (fun _ => (0 : K)) ⟨0, hn⟩ 1, advanceHead ⟨j, hjlt⟩⟩) := by
  have hbuf : Function.update (Function.update (fun _ => (0 : K)) (⟨0, hn⟩ : Fin n) 1)
      (⟨j, hjlt⟩ : Fin n) 0 = Function.update (fun _ => (0 : K)) (⟨0, hn⟩ : Fin n) 1 := by
    funext y
    rw [Function.update_apply]
    split_ifs with hy
    · have hne : (⟨j, hjlt⟩ : Fin n) ≠ ⟨0, hn⟩ := by
        intro hc
        have hval : j = 0 := congrArg Fin.val hc
        omega
      rw [hy, Function.update_apply, if_neg hne]
    · rfl
  unfold firProcessSample
  simp only [hbuf, firConv_deltaBuf c hn j hjlt]

lemma firStep_wrap (c : Fin n → K) (hn : 0 < n) :
    firProcessSample
      (⟨c, Function.update (fun _ => (0 : K)) ⟨0, hn⟩ 1, ⟨0, hn⟩⟩ : FirState K n) 0 =
      (0, ⟨c, fun _ => 0, advanceHead ⟨0, hn⟩⟩) := by
  have hbuf : Function.update (Function.update (fun _ => (0 : K)) (⟨0, hn⟩ : Fin n) 1)
      (⟨0, hn⟩ : Fin n) 0 = (fun _ => (0 : K)) := by
    funext y
    rw [Function.update_apply, Function.update_apply]
    split_ifs <;> rfl
  unfold firProcessSample
  simp only [hbuf, firConv_zeroBuf]

lemma firStep_zeroBuf (c : Fin n → K) (h : Fin n) :
    firProcessSample (⟨c, fun _ => 0, h⟩ : FirState K n) 0 =
      (0, ⟨c, fun _ => 0, advanceHead h⟩) := by
  have hbuf : Function.update (fun _ => (0 : K)) h 0 = (fun _ => (0 : K)) := by
    funext y
    rw [Function.update_apply]
    split_ifs <;> rfl
  unfold firProcessSample
  simp only [hbuf, firConv_zeroBuf]

lemma filterGo_append (step : σ → K → K × σ) (s : σ) (xs ys : List K) :
    filterGo step s (xs ++ ys) =
      ((filterGo step s xs).1 ++ (filterGo step (filterGo step s xs).2 ys).1,
       (filterGo step (filterGo step s xs).2 ys).2) := by
  induction xs generalizing s with
  | nil => rfl
  | cons x xs ih =>
    simp only [List.cons_append, filterGo, List.append_eq, ih, List.nil_append]

lemma firRun_zeroBuf (c : Fin n → K) :
    ∀ (m : ℕ) (h : Fin n),
      (filterGo firProcessSample (⟨c, fun _ => 0, h⟩ : FirState K n)
        (List.replicate m 0)).1 = List.replicate m 0 := by
  intro m
  induction m with
  | zero => intro h; rfl
  | succ m ih =>
    intro h
    rw [List.replicate_succ]
    simp only [filterGo, firStep_zeroBuf c h]
    rw [ih (advanceHead h)]

lemma firRun_delta (c : Fin n → K) (hn : 0 < n) :
    ∀ (m j : ℕ) (hj : 1 ≤ j) (hjm : j + m ≤ n),
      filterGo firProcessSample
        (⟨c, Function.update (fun _ => (0 : K)) ⟨0, hn⟩ 1,
          ⟨j % n, Nat.mod_lt j hn⟩⟩ : FirState K n)
        (List.replicate m 0) =
      (List.ofFn (fun k : Fin m => c ⟨j + k.val, by have := k.isLt; omega⟩),
       ⟨c, Function.update (fun _ => (0 : K)) ⟨0, hn⟩ 1,
        ⟨(j + m) % n, Nat.mod_lt _ hn⟩⟩) := by
  intro m
  induction m with
  | zero =>
    intro j hj hjm
    simp only [filterGo, List.ofFn_zero, List.replicate_zero]
    rfl
  | succ m ih =>
    intro j hj hjm
    have hjlt : j < n := by omega
    have hhead : (⟨j % n, Nat.mod_lt j hn⟩ : Fin n) = ⟨j, hjlt⟩ :=
      Fin.ext (Nat.mod_eq_of_lt hjlt)
    rw [hhead, List.replicate_succ]
    simp only [filterGo, firStep_delta c hn j hj hjlt]
    have hadv : advanceHead (⟨j, hjlt⟩ : Fin n) =
        ⟨(j + 1) % n, Nat.mod_lt _ hn⟩ := by
      haveI : NeZero n := ⟨by omega⟩
      rw [advanceHead_eq]
    rw [hadv, ih (j + 1) (by omega) (by omega)]
    have houts : c ⟨j, hjlt⟩ ::
        List.ofFn (fun k : Fin m => c ⟨j + 1 + k.val, by have := k.isLt; omega⟩) =
        List.ofFn (fun k : Fin (m + 1) => c ⟨j + k.val, by have := k.isLt; omega⟩) := by
      rw [List.ofFn_succ]
      refine congrArg₂ List.cons ?_ ?_
      · exact congrArg c (Fin.ext (by simp))
      · exact congrArg List.ofFn (funext fun k =>
          congrArg c (Fin.ext (by simp only [Fin.val_succ]; omega)))
    have hstate : (⟨(j + 1 + m) % n, Nat.mod_lt _ hn⟩ : Fin n) =
        ⟨(j + (m + 1)) % n, Nat.mod_lt _ hn⟩ := by
      apply Fin.ext
      show (j + 1 + m) % n = (j + (m + 1)) % n
      rw [show j + 1 + m = j + (m + 1) from by omega]
    rw [houts, hstate]

lemma ofFn_eq_head_cons (c : Fin n → K) (hn : 0 < n) :
    List.ofFn c = c ⟨0, hn⟩ ::
      List.ofFn (fun k : Fin (n - 1) => c ⟨1 + k.val, by have := k.isLt; omega⟩) := by
  obtain ⟨p, rfl⟩ : ∃ p, n = p + 1 := ⟨n - 1, by omega⟩
  simp only [Nat.add_sub_cancel]
  rw [List.ofFn_succ]
  refine congrArg₂ List.cons ?_ ?_
  · exact congrArg c (Fin.ext (by simp))
  · exact congrArg List.ofFn (funext fun k =>
      congrArg c (Fin.ext (by simp only [Fin.val_succ, Fin.coe_cast]; omega)))

/-- C8: feeding a unit impulse of length `L ≥ Size` (first sample 1, the rest
0) through a freshly constructed FIR filter (zero history, head 0) whose
coefficients are `c` produces exactly the coefficient vector, in order, as
the first `Size` output samples, and `0` for every later sample. -/
theorem fir_impulse_response {n L : ℕ} [NeZero n] (c : Fin n → K) (hL : n ≤ L) :
    (filterProcessContainer firProcessSample (freshFir c)
      ((1 : K) :: List.replicate (L - 1) 0)).1 =
      List.ofFn c ++ List.replicate (L - n) 0 := by
  have hn : 0 < n := Nat.pos_of_ne_zero (NeZero.ne n)
  have hsplit : List.replicate (L - 1) (0 : K) =
      List.replicate (n - 1) 0 ++ List.replicate (L - n) 0 := by
    rw [← List.replicate_add]
    congr 1
    omega
  unfold filterProcessContainer freshFir
  rw [hsplit]
  simp only [filterGo, firStep_impulse c hn]
  have hadv0 : advanceHead (⟨0, hn⟩ : Fin n) = ⟨1 % n, Nat.mod_lt 1 hn⟩ := by
    haveI : NeZero n := ⟨by omega⟩
    rw [advanceHead_eq]
  rw [hadv0, filterGo_append, firRun_delta c hn (n - 1) 1 (le_refl 1) (by omega)]
  have hwrapHead : (⟨(1 + (n - 1)) % n, Nat.mod_lt _ hn⟩ : Fin n) = ⟨0, hn⟩ := by
    apply Fin.ext
    show (1 + (n - 1)) % n = 0
    rw [show 1 + (n - 1) = n from by omega, Nat.mod_self]
  rw [hwrapHead]
  rcases Nat.eq_zero_or_pos (L - n) with h0 | hpos
  · rw [h0]
    simp only [List.replicate_zero, filterGo, List.append_nil]
    rw [ofFn_eq_head_cons c hn]
  · obtain ⟨t, ht⟩ : ∃ t, L - n = t + 1 := ⟨L - n - 1, by omega⟩
    rw [ht, List.replicate_succ]
    simp only [filterGo, firStep_wrap c hn]
    rw [firRun_zeroBuf c t (advanceHead ⟨0, hn⟩)]
    rw [ofFn_eq_head_cons c hn, List.cons_append]

/-- Witness for C8 at `Size = 2`, coefficients `(3, 5)`, impulse length 3. -/
theorem fir_impulse_response_witness :
    (2 : ℕ) ≤ 3 ∧
    (filterProcessContainer firProcessSample (freshFir (![3, 5] : Fin 2 → ℚ))
      ((1 : ℚ) :: List.replicate 2 0)).1 =
      List.ofFn (![3, 5] : Fin 2 → ℚ) ++ List.replicate 1 0 :=
  ⟨by omega, fir_impulse_response (n := 2) (L := 3) (![3, 5] : Fin 2 → ℚ) (by omega)⟩

end FirImpulse

end DSPSpec
